import Mathlib

/-!
# fast-hasher: verification of the core pipeline

Shallow embedding of the fast-hasher repository's core components and proofs
about them:

* `QuickXorHash` — the bespoke circular-shifting XOR accumulator
  (`pkg/quickxorhash/quickxorhash.go`).
* `Hasher` — the multi-hash fan-out over a read-once byte source
  (`internal/hasher`).
* `Scanner` — the filter predicate and the scan orchestration
  (`internal/scanner`).

Bytes are modelled as `Nat` values below 256; Go's `uint64` byte counter is
a `Nat` reduced modulo `2 ^ 64` where the source wraps.
-/

set_option maxRecDepth 100000
set_option linter.unusedVariables false
set_option linter.dupNamespace false

namespace QuickXorHash

/-- Go `Size`: width of the output digest in bytes. -/
def Size : Nat := 20

/-- Go `widthInBits = 8 * Size`. -/
def widthInBits : Nat := 8 * Size

/-- Go `dataSize = shift * widthInBits` with `shift = 11`, i.e. 1760. -/
def dataSize : Nat := 11 * widthInBits

/-- Modulus of Go's `uint64` byte counter. -/
def U64 : Nat := 2 ^ 64

/-- Go `xorBytes(dst, src)` = `subtle.XORBytes(dst, src, dst)`:
`dst[i] = src[i] ^ dst[i]` for `i < min dst.length src.length`; the rest of
`dst` is unchanged.  The number of bytes written is
`min dst.length src.length`. -/
def xorBytes (dst src : List Nat) : List Nat :=
  List.zipWith (fun d s => s ^^^ d) dst src ++ dst.drop src.length

/-- The state of Go's `quickXorHash`: the 1760-byte circular buffer and the
`uint64` total-byte counter. -/
structure QXH where
  data : List Nat
  size : Nat
  deriving DecidableEq, Repr

/-- Go `New()` / the zero `quickXorHash{}` value. -/
def new : QXH := ⟨List.replicate dataSize 0, 0⟩

/-- The block loop of Go `Write`: while at least `dataSize` bytes of input
remain, XOR a full block into the buffer starting at position 0
(`for len(p)-i >= dataSize { i += xorBytes(q.data[:], p[i:]) }`), then XOR
the remaining tail at position 0 (`xorBytes(q.data[:], p[i:])`). -/
def writeLoop (data p : List Nat) : List Nat :=
  if h : dataSize ≤ p.length then
    writeLoop (xorBytes data p) (p.drop dataSize)
  else
    xorBytes data p
termination_by p.length
decreasing_by
  have hpos : 0 < dataSize := by simp [dataSize, widthInBits, Size]
  simp only [List.length_drop]
  omega

/-- Go `Write`: fill from the current circular position
`lastRemain = size % dataSize` up to the end of the buffer, then run the
block loop for the rest of the input; finally advance the `uint64`
byte counter. -/
def Write (q : QXH) (p : List Nat) : QXH :=
  let lastRemain := q.size % dataSize
  let i := if lastRemain ≠ 0 then min (q.data.drop lastRemain).length p.length else 0
  let data1 :=
    if lastRemain ≠ 0 then q.data.take lastRemain ++ xorBytes (q.data.drop lastRemain) p
    else q.data
  let data2 := if i ≠ p.length then writeLoop data1 (p.drop i) else data1
  { data := data2, size := (q.size + p.length) % U64 }

/-- The folding loop of Go `checkSum`: for buffer position `i` holding byte
`b`, with `shift = (i*11) % 160`, XOR `b <<< (shift % 8)` into scratch bytes
`shift/8` and `shift/8 + 1`.  The buffer is traversed as a list carrying the
index `i`. -/
def checkSumLoop : List Nat → Nat → List Nat → List Nat
  | [], _, h => h
  | b :: rest, i, h =>
    let shift := (i * 11) % widthInBits
    let shiftBytes := shift / 8
    let shiftBits := shift % 8
    let shifted := b <<< shiftBits
    let h1 := h.set shiftBytes (h.getD shiftBytes 0 ^^^ shifted % 256)
    let h2 := h1.set (shiftBytes + 1)
      (h1.getD (shiftBytes + 1) 0 ^^^ (shifted >>> 8) % 256)
    checkSumLoop rest (i + 1) h2

/-- Go `checkSum`: fold the 1760 buffer positions into a 21-byte scratch,
XOR scratch byte 20 into byte 0, then XOR the little-endian byte counter
into bytes `Size-8 .. Size-1`. -/
def checkSum (q : QXH) : List Nat :=
  let h0 := checkSumLoop q.data 0 (List.replicate (Size + 1) 0)
  let h1 := h0.set 0 (h0.getD 0 0 ^^^ h0.getD 20 0)
  (List.range 8).foldl
    (fun h k =>
      h.set (Size - 8 + k) (h.getD (Size - 8 + k) 0 ^^^ (q.size >>> (8 * k)) % 256))
    h1

/-- Go `Sum`: the first `Size` bytes of the 21-byte scratch.  `Sum` reads the
state and does not change it; its full signature (digest, post-state) is
`SumSt` below. -/
def Sum (q : QXH) : List Nat := (checkSum q).take Size

/-- Go `Sum` with the post-call receiver state made explicit: the method body
(`hash := q.checkSum(); return append(b, hash[:Size]...)`) assigns no field
of `q`, so the post-state is the receiver unchanged. -/
def SumSt (q : QXH) : List Nat × QXH := ((checkSum q).take Size, q)

/-- Standard base64 alphabet (Go `encoding/base64.StdEncoding`). -/
def base64Chars : List Char :=
  "ABCDEFGHIJKLMNOPQRSTUVWXYZabcdefghijklmnopqrstuvwxyz0123456789+/".toList

/-- The base64 character for a 6-bit value. -/
def b64c (n : Nat) : Char := base64Chars.getD n 'A'

/-- Standard base64 encoding with `=` padding
(Go `base64.StdEncoding.EncodeToString`). -/
def base64Encode : List Nat → List Char
  | [] => []
  | [a] => [b64c (a / 4), b64c (a % 4 * 16), '=', '=']
  | [a, b] => [b64c (a / 4), b64c (a % 4 * 16 + b / 16), b64c (b % 16 * 4), '=']
  | a :: b :: c :: rest =>
    b64c (a / 4) :: b64c (a % 4 * 16 + b / 16) :: b64c (b % 16 * 4 + c / 64) ::
      b64c (c % 64) :: base64Encode rest

/-- The ASCII bytes of a string. -/
def strBytes (s : String) : List Nat := s.toList.map Char.toNat

/-- Absorb one byte list into a fresh accumulator and return the
base64-encoded digest, as the repository's tests do
(`h := New(); h.Write(input); base64.StdEncoding.EncodeToString(h.Sum(nil))`). -/
def digestB64 (p : List Nat) : String :=
  String.mk (base64Encode (Sum (Write new p)))

/-- Byte-at-a-time specification of `Write`'s buffer update: input byte `j`
is XORed into the buffer at position `(pos + j) % dataSize`.  `Write` is
proved equal to this in `Write_spec`. -/
def absorbSpec (data : List Nat) (pos : Nat) : List Nat → List Nat
  | [] => data
  | b :: rest =>
    absorbSpec (data.set (pos % dataSize) (b ^^^ data.getD (pos % dataSize) 0)) (pos + 1) rest

/-- Setting an index to the value already there is the identity. -/
theorem set_getD_self (l : List Nat) (j : Nat) : l.set j (l.getD j 0) = l := by
  induction l generalizing j with
  | nil => simp
  | cons a t ih =>
    cases j with
    | zero => simp
    | succ n =>
      simp only [List.getD_cons_succ, List.set_cons_succ]
      rw [ih]

/-- `checkSumLoop` splits over list append, shifting the index. -/
theorem checkSumLoop_append (a b : List Nat) (i : Nat) (h : List Nat) :
    checkSumLoop (a ++ b) i h = checkSumLoop b (i + a.length) (checkSumLoop a i h) := by
  induction a generalizing i h with
  | nil => simp [checkSumLoop]
  | cons x t ih =>
    simp only [List.cons_append, checkSumLoop, List.append_eq, ih, List.length_cons]
    have hidx : i + 1 + t.length = i + (t.length + 1) := by omega
    rw [hidx]

/-- Zero buffer bytes are absorbed without effect in `checkSumLoop`. -/
theorem checkSumLoop_zeroes (n i : Nat) (h : List Nat) :
    checkSumLoop (List.replicate n 0) i h = h := by
  induction n generalizing i h with
  | zero => simp [checkSumLoop]
  | succ m ih =>
    rw [List.replicate_succ]
    simp only [checkSumLoop, Nat.zero_shiftLeft, Nat.zero_mod, Nat.zero_shiftRight,
      Nat.xor_zero, set_getD_self]
    exact ih _ _

/-- XORing into an all-zero buffer copies the input and keeps the padding. -/
theorem xorBytes_zeroes (p : List Nat) (n : Nat) (hle : p.length ≤ n) :
    xorBytes (List.replicate n 0) p = p ++ List.replicate (n - p.length) 0 := by
  induction p generalizing n with
  | nil => simp [xorBytes]
  | cons x t ih =>
    cases n with
    | zero => simp at hle
    | succ m =>
      have hle2 : t.length ≤ m := by simpa using hle
      have hm := ih m hle2
      simp only [xorBytes] at hm ⊢
      simp only [List.replicate_succ, List.zipWith_cons_cons, List.length_cons,
        List.drop_succ_cons, Nat.xor_zero, List.cons_append, Nat.succ_sub_succ]
      rw [hm]

/-- Below `dataSize` remaining bytes, `writeLoop` is a single tail XOR. -/
theorem writeLoop_small (data p : List Nat) (hlen : p.length < dataSize) :
    writeLoop data p = xorBytes data p := by
  unfold writeLoop
  rw [dif_neg (by omega)]

/-- A first `Write` of fewer than `dataSize` bytes into a fresh accumulator
copies the bytes to the front of the buffer and records the length. -/
theorem Write_new_small (p : List Nat) (hne : p ≠ []) (hlen : p.length < dataSize) :
    Write new p = ⟨p ++ List.replicate (dataSize - p.length) 0, p.length % U64⟩ := by
  have hne2 : (0 : Nat) ≠ p.length := by
    intro h0
    exact hne (List.eq_nil_of_length_eq_zero h0.symm)
  simp [Write, new, hne2]
  rw [writeLoop_small _ _ hlen, xorBytes_zeroes p dataSize (Nat.le_of_lt hlen)]

/-- A `Write` of the empty input to a fresh accumulator is a no-op. -/
theorem Write_new_nil : Write new [] = new := by
  simp [Write, new, U64]

/-- Zero padding at the end of the buffer does not change the checksum. -/
theorem checkSum_pad (p : List Nat) (k sz : Nat) :
    checkSum ⟨p ++ List.replicate k 0, sz⟩ = checkSum ⟨p, sz⟩ := by
  simp only [checkSum, checkSumLoop_append, checkSumLoop_zeroes]

/-- XOR into a buffer with no source bytes changes nothing. -/
theorem xorBytes_nil (dst : List Nat) : xorBytes dst [] = dst := by
  simp [xorBytes]

/-- `xorBytes` acts pointwise on heads. -/
theorem xorBytes_cons (d s : Nat) (ds ss : List Nat) :
    xorBytes (d :: ds) (s :: ss) = (s ^^^ d) :: xorBytes ds ss := by
  simp [xorBytes]

/-- `xorBytes` preserves the destination length. -/
theorem xorBytes_length (dst src : List Nat) : (xorBytes dst src).length = dst.length := by
  simp [xorBytes]
  omega

/-- Source bytes beyond the destination length are ignored by `xorBytes`. -/
theorem xorBytes_take (data p : List Nat) :
    xorBytes data (p.take data.length) = xorBytes data p := by
  induction data generalizing p with
  | nil => simp [xorBytes]
  | cons d ds ih =>
    cases p with
    | nil => simp
    | cons s ss =>
      simp only [List.length_cons, List.take_succ_cons, xorBytes_cons, ih]

/-- `absorbSpec` splits over append, advancing the position. -/
theorem absorbSpec_append (a b : List Nat) (data : List Nat) (pos : Nat) :
    absorbSpec data pos (a ++ b) = absorbSpec (absorbSpec data pos a) (pos + a.length) b := by
  induction a generalizing data pos with
  | nil => simp [absorbSpec]
  | cons x t ih =>
    simp only [List.cons_append, absorbSpec, List.append_eq, ih, List.length_cons]
    have hidx : pos + 1 + t.length = pos + (t.length + 1) := by omega
    rw [hidx]

/-- The starting position of `absorbSpec` only matters modulo `dataSize`. -/
theorem absorbSpec_mod (p : List Nat) (data : List Nat) (pos : Nat) :
    absorbSpec data (pos % dataSize) p = absorbSpec data pos p := by
  induction p generalizing data pos with
  | nil => rfl
  | cons b rest ih =>
    simp only [absorbSpec, Nat.mod_mod_of_dvd _ dvd_rfl]
    rw [← ih _ (pos % dataSize + 1), ← ih _ (pos + 1), Nat.mod_add_mod]

/-- `absorbSpec` preserves the buffer length. -/
theorem absorbSpec_length (p : List Nat) (data : List Nat) (pos : Nat) :
    (absorbSpec data pos p).length = data.length := by
  induction p generalizing data pos with
  | nil => rfl
  | cons b rest ih => simp [absorbSpec, ih]

/-- `getD` just past a left factor of an append reads the next element. -/
theorem getD_append_length (u w : List Nat) (x : Nat) :
    (u ++ x :: w).getD u.length 0 = x := by
  induction u with
  | nil => rfl
  | cons a t ih => simpa using ih

/-- `set` just past a left factor of an append writes the next element. -/
theorem set_append_length (u w : List Nat) (x v : Nat) :
    (u ++ x :: w).set u.length v = u ++ v :: w := by
  induction u with
  | nil => rfl
  | cons a t ih => simp [ih]

/-- No-wrap case: absorbing `p` starting right after the prefix `u` of the
buffer `u ++ w` XORs `p` into `w` in place. -/
theorem absorbSpec_front (p : List Nat) : ∀ (u w : List Nat),
    (u ++ w).length = dataSize → u.length + p.length ≤ dataSize →
    absorbSpec (u ++ w) u.length p = u ++ xorBytes w p := by
  induction p with
  | nil => intro u w _ _; simp [absorbSpec, xorBytes_nil]
  | cons b rest ih =>
    intro u w hlen hle
    cases w with
    | nil =>
      exfalso
      simp only [List.append_nil] at hlen
      simp only [List.length_cons] at hle
      omega
    | cons x w2 =>
      have hpos : u.length < dataSize := by
        simp only [List.length_cons] at hle
        omega
      simp only [absorbSpec, Nat.mod_eq_of_lt hpos, getD_append_length, set_append_length]
      have hstep : u ++ (b ^^^ x) :: w2 = (u ++ [b ^^^ x]) ++ w2 := by
        simp
      rw [hstep]
      have hul : u.length + 1 = (u ++ [b ^^^ x]).length := by simp
      rw [hul]
      rw [ih (u ++ [b ^^^ x]) w2
        (by simp only [List.length_append, List.length_cons] at hlen ⊢; simp; omega)
        (by simp only [List.length_append, List.length_cons] at hle ⊢; simp; omega)]
      rw [xorBytes_cons]
      simp

/-- The Go block loop agrees with the byte-at-a-time specification started
at buffer position 0. -/
theorem writeLoop_spec (data p : List Nat) :
    data.length = dataSize → writeLoop data p = absorbSpec data 0 p := by
  induction data, p using writeLoop.induct with
  | case1 data p hge ih =>
    intro hlen
    rw [writeLoop, dif_pos hge]
    rw [ih (by rw [xorBytes_length]; exact hlen)]
    conv_rhs => rw [← List.take_append_drop dataSize p]
    rw [absorbSpec_append]
    have htk : (p.take dataSize).length = dataSize := by
      simp only [List.length_take]
      omega
    rw [htk]
    have hfront := absorbSpec_front (p.take dataSize) [] data (by simpa using hlen)
      (by simp [htk])
    simp only [List.nil_append, List.length_nil] at hfront
    rw [hfront]
    have hxb : xorBytes data (p.take dataSize) = xorBytes data p := by
      rw [← hlen]
      exact xorBytes_take data p
    rw [hxb, Nat.zero_add]
    have hmod := absorbSpec_mod (p.drop dataSize) (xorBytes data p) dataSize
    rw [Nat.mod_self] at hmod
    exact hmod
  | case2 data p hlt =>
    intro hlen
    have h0 := absorbSpec_front p [] data (by simpa using hlen)
      (by simp only [List.length_nil, Nat.zero_add]; omega)
    simp only [List.nil_append, List.length_nil] at h0
    rw [writeLoop_small _ _ (by omega), h0]

/-- Go `Write` equals the byte-at-a-time circular-XOR specification. -/
theorem Write_spec (q : QXH) (p : List Nat) (hlen : q.data.length = dataSize) :
    Write q p = ⟨absorbSpec q.data q.size p, (q.size + p.length) % U64⟩ := by
  by_cases hp : p = []
  · subst hp
    by_cases h0 : q.size % dataSize = 0
    · simp [Write, absorbSpec, h0]
    · simp [Write, absorbSpec, h0, xorBytes_nil, List.take_append_drop]
  · have hplen : 0 < p.length := List.length_pos.mpr hp
    have hne : ((0 : Nat) = p.length) = False := by
      simp only [eq_iff_iff, iff_false]
      omega
    have hmodspec := absorbSpec_mod p q.data q.size
    by_cases h0 : q.size % dataSize = 0
    · simp only [Write, h0, ne_eq, not_true_eq_false, if_false, ite_false, hne,
        not_false_eq_true, if_true, ite_true, List.drop_zero]
      rw [writeLoop_spec _ _ hlen]
      rw [h0] at hmodspec
      rw [hmodspec]
    · -- lastRemain ≠ 0
      have hrlt : q.size % dataSize < dataSize := by
        have : 0 < dataSize := by simp [dataSize, widthInBits, Size]
        exact Nat.mod_lt _ this
      have hdlen : (q.data.drop (q.size % dataSize)).length = dataSize - q.size % dataSize := by
        simp [List.length_drop, hlen]
      have htdlen : (q.data.take (q.size % dataSize)).length = q.size % dataSize := by
        simp [List.length_take, hlen]
        omega
      have hfull : q.data.take (q.size % dataSize) ++ q.data.drop (q.size % dataSize)
          = q.data := List.take_append_drop _ _
      by_cases hsmall : p.length ≤ dataSize - q.size % dataSize
      · -- the input fits before the end of the buffer
        have hi : min (q.data.drop (q.size % dataSize)).length p.length = p.length := by
          rw [hdlen]
          omega
        have hfront := absorbSpec_front p (q.data.take (q.size % dataSize))
          (q.data.drop (q.size % dataSize))
          (by rw [hfull]; exact hlen) (by rw [htdlen]; omega)
        rw [hfull, htdlen] at hfront
        simp only [Write, if_pos h0, hi, ne_eq, not_true_eq_false, if_false, ite_false]
        rw [← hfront, hmodspec]
      · -- the input wraps: first fill to the end of the buffer
        have hi : min (q.data.drop (q.size % dataSize)).length p.length
            = dataSize - q.size % dataSize := by
          rw [hdlen]
          omega
        simp only [Write, if_pos h0, ne_eq, hi]
        -- data1 rewritten through the no-wrap front lemma on `p.take i`
        have hxt : xorBytes (q.data.drop (q.size % dataSize)) p
            = xorBytes (q.data.drop (q.size % dataSize))
                (p.take (dataSize - q.size % dataSize)) := by
          rw [← xorBytes_take (q.data.drop (q.size % dataSize)) p, hdlen]
        have htklen : (p.take (dataSize - q.size % dataSize)).length
            = dataSize - q.size % dataSize := by
          simp only [List.length_take]
          omega
        have hfront := absorbSpec_front (p.take (dataSize - q.size % dataSize))
          (q.data.take (q.size % dataSize)) (q.data.drop (q.size % dataSize))
          (by rw [hfull]; exact hlen) (by rw [htdlen, htklen]; omega)
        rw [hfull, htdlen] at hfront
        have hne2 : ¬ (dataSize - q.size % dataSize = p.length) := by omega
        rw [if_pos hne2]
        rw [hxt, ← hfront]
        rw [writeLoop_spec _ _ (by rw [absorbSpec_length]; exact hlen)]
        -- now fold the two spec passes back into one
        rw [← hmodspec]
        conv_rhs => rw [← List.take_append_drop (dataSize - q.size % dataSize) p]
        rw [absorbSpec_append, htklen]
        have hsum : q.size % dataSize + (dataSize - q.size % dataSize) = dataSize := by
          omega
        rw [hsum]
        have hmod2 := absorbSpec_mod (p.drop (dataSize - q.size % dataSize))
          (absorbSpec q.data (q.size % dataSize) (p.take (dataSize - q.size % dataSize)))
          dataSize
        rw [Nat.mod_self] at hmod2
        rw [← hmod2, List.take_append_drop]

/-- Two consecutive `Write`s are one `Write` of the concatenation, as long as
the `uint64` byte counter does not overflow in between. -/
theorem Write_append (q : QXH) (a b : List Nat) (hlen : q.data.length = dataSize)
    (hsz : q.size + a.length < U64) :
    Write (Write q a) b = Write q (a ++ b) := by
  rw [Write_spec q a hlen]
  rw [Write_spec _ b (by rw [absorbSpec_length]; exact hlen)]
  rw [Write_spec q (a ++ b) hlen]
  simp only [Nat.mod_eq_of_lt hsz, absorbSpec_append, List.length_append]
  simp [Nat.add_assoc]

/-- Folding `Write` over a chunk list is one `Write` of the flattened input,
below the `uint64` limit. -/
theorem foldl_Write_flatten (cs : List (List Nat)) (q : QXH)
    (hlen : q.data.length = dataSize) (hsz : q.size + cs.flatten.length < U64) :
    cs.foldl Write q = Write q cs.flatten := by
  induction cs generalizing q with
  | nil =>
    rw [List.foldl_nil, List.flatten_nil, Write_spec q [] hlen]
    simp only [absorbSpec, List.length_nil, Nat.add_zero]
    rw [Nat.mod_eq_of_lt (by simpa using hsz)]
  | cons c cs ih =>
    rw [List.foldl_cons, List.flatten_cons]
    rw [← Write_append q c cs.flatten hlen
      (by simp only [List.flatten_cons, List.length_append] at hsz; omega)]
    exact ih (Write q c)
      (by rw [Write_spec q c hlen]; simpa [absorbSpec_length] using hlen)
      (by
        rw [Write_spec q c hlen]
        show (q.size + c.length) % U64 + cs.flatten.length < U64
        simp only [List.flatten_cons, List.length_append] at hsz
        have hmle : (q.size + c.length) % U64 ≤ q.size + c.length := Nat.mod_le _ _
        omega)

end QuickXorHash

/-- C3: chunk invariance of the QuickXor accumulator (the one algorithm whose
absorb code lives in this repository): absorbing any chunk sequence and
finalizing equals absorbing the flattened input once and finalizing, for any
well-formed accumulator state whose `uint64` byte counter does not overflow;
and absorbing a zero-length input is a no-op on the whole state. -/
theorem C3_chunk_invariance (q : QuickXorHash.QXH) (cs : List (List Nat))
    (hlen : q.data.length = QuickXorHash.dataSize)
    (hsz : q.size + cs.flatten.length < QuickXorHash.U64) :
    QuickXorHash.Sum (cs.foldl QuickXorHash.Write q)
      = QuickXorHash.Sum (QuickXorHash.Write q cs.flatten) ∧
    QuickXorHash.Write q [] = q := by
  constructor
  · rw [QuickXorHash.foldl_Write_flatten cs q hlen hsz]
  · rw [QuickXorHash.Write_spec q [] hlen]
    simp only [QuickXorHash.absorbSpec, List.length_nil, Nat.add_zero]
    rw [Nat.mod_eq_of_lt (by omega)]

/-- Witness for C3 at a concrete split: absorbing `"hello"` then `" world"`
equals absorbing `"hello world"` at once. -/
theorem C3_chunk_invariance_witness :
    QuickXorHash.new.data.length = QuickXorHash.dataSize ∧
    QuickXorHash.new.size
        + ([QuickXorHash.strBytes "hello", QuickXorHash.strBytes " world"] : List (List Nat)).flatten.length
      < QuickXorHash.U64 ∧
    (QuickXorHash.Sum ([QuickXorHash.strBytes "hello",
        QuickXorHash.strBytes " world"].foldl QuickXorHash.Write QuickXorHash.new)
      = QuickXorHash.Sum (QuickXorHash.Write QuickXorHash.new
          [QuickXorHash.strBytes "hello", QuickXorHash.strBytes " world"].flatten) ∧
     QuickXorHash.Write QuickXorHash.new [] = QuickXorHash.new) :=
  ⟨by simp [QuickXorHash.new, QuickXorHash.dataSize, QuickXorHash.widthInBits,
      QuickXorHash.Size],
   by decide,
   C3_chunk_invariance QuickXorHash.new _
     (by simp [QuickXorHash.new, QuickXorHash.dataSize, QuickXorHash.widthInBits,
        QuickXorHash.Size])
     (by decide)⟩

/-- C9: finalization of the QuickXor accumulator is non-mutating and
idempotent: `Sum` leaves the state exactly as it was, a second `Sum` returns
the same digest bytes, and a subsequent `Write` behaves as if `Sum` had never
been called. -/
theorem C9_finalize_idempotent (q : QuickXorHash.QXH) (p : List Nat) :
    (QuickXorHash.SumSt q).2 = q ∧
    (QuickXorHash.SumSt (QuickXorHash.SumSt q).2).1 = (QuickXorHash.SumSt q).1 ∧
    QuickXorHash.Write (QuickXorHash.SumSt q).2 p = QuickXorHash.Write q p :=
  ⟨rfl, rfl, rfl⟩

/-- C1: the QuickXor accumulator reproduces the reference QuickXorHash
bit-exactly on the three reference vectors: the empty input, `"hello"`, and
`"hello world"` produce the published base64 digests, with finalization as in
`checkSum` (per-position rotation by `(11*i) % 160` into a 21-byte scratch,
byte 20 folded into byte 0, then the little-endian byte count XORed into the
last 8 digest bytes). -/
theorem C1_quickxor_reference_vectors :
    QuickXorHash.digestB64 (QuickXorHash.strBytes "") = "AAAAAAAAAAAAAAAAAAAAAAAAAAA=" ∧
    QuickXorHash.digestB64 (QuickXorHash.strBytes "hello") = "aCgDG9jwBgAAAAAABQAAAAAAAAA=" ∧
    QuickXorHash.digestB64 (QuickXorHash.strBytes "hello world")
      = "aCgDG9jwBhDc4Q1yawMZAAAAAAA=" := by
  refine ⟨?_, ?_, ?_⟩
  · show String.mk (QuickXorHash.base64Encode
      (QuickXorHash.Sum (QuickXorHash.Write QuickXorHash.new []))) = _
    rw [QuickXorHash.Write_new_nil]
    show String.mk (QuickXorHash.base64Encode
      ((QuickXorHash.checkSum ⟨List.replicate QuickXorHash.dataSize 0, 0⟩).take
        QuickXorHash.Size)) = _
    have := QuickXorHash.checkSum_pad [] QuickXorHash.dataSize 0
    simp only [List.nil_append] at this
    rw [this]
    decide
  · show String.mk (QuickXorHash.base64Encode
      (QuickXorHash.Sum (QuickXorHash.Write QuickXorHash.new
        (QuickXorHash.strBytes "hello")))) = _
    rw [QuickXorHash.Write_new_small _ (by decide) (by decide)]
    show String.mk (QuickXorHash.base64Encode
      ((QuickXorHash.checkSum _).take QuickXorHash.Size)) = _
    rw [QuickXorHash.checkSum_pad]
    decide
  · show String.mk (QuickXorHash.base64Encode
      (QuickXorHash.Sum (QuickXorHash.Write QuickXorHash.new
        (QuickXorHash.strBytes "hello world")))) = _
    rw [QuickXorHash.Write_new_small _ (by decide) (by decide)]
    show String.mk (QuickXorHash.base64Encode
      ((QuickXorHash.checkSum _).take QuickXorHash.Size)) = _
    rw [QuickXorHash.checkSum_pad]
    decide

namespace Hasher

/-- The Go `Hasher` interface of `internal/hasher` together with the
`hash.Hash` operations of the accumulators it constructs: `Name()`, `New()`
(a fresh accumulator), `IsBase64()`, and the accumulator's `Write` and `Sum`
methods over a state type `σ`. -/
structure HashAlg (σ : Type) where
  name : String
  new : σ
  write : σ → List Nat → σ
  sum : σ → List Nat
  isBase64 : Bool

/-- A registered hasher: a descriptor packaged with its state type. -/
def Hasher := Σ σ : Type, HashAlg σ

/-- A live accumulator: descriptor plus current state (Go `hash.Hash`). -/
structure HashInstance where
  σ : Type
  alg : HashAlg σ
  state : σ

/-- Go `h.New()`: a fresh accumulator for one registered hasher. -/
def mkInstance (h : Hasher) : HashInstance := ⟨h.1, h.2, h.2.new⟩

/-- One accumulator absorbing one chunk. -/
def writeChunk (c : List Nat) (inst : HashInstance) : HashInstance :=
  ⟨inst.σ, inst.alg, inst.alg.write inst.state c⟩

/-- Go `io.MultiWriter(writers...).Write(c)`: the chunk is written to every
accumulator, in order. -/
def multiWrite (insts : List HashInstance) (c : List Nat) : List HashInstance :=
  insts.map (writeChunk c)

/-- Go `io.Copy(mw, r)`: the source's chunk sequence is fed chunk-by-chunk
to all accumulators; the source is read once and never rewound. -/
def copyChunks (insts : List HashInstance) (chunks : List (List Nat)) : List HashInstance :=
  chunks.foldl multiWrite insts

/-- Lowercase hex alphabet (Go `encoding/hex`). -/
def hexChars : List Char := "0123456789abcdef".toList

/-- Go `hex.EncodeToString`: two lowercase hex digits per byte, high nibble
first. -/
def hexEncode (bs : List Nat) : List Char :=
  bs.foldr (fun b acc => hexChars.getD (b / 16) '0' :: hexChars.getD (b % 16) '0' :: acc) []

/-- The canonical text encoding of one finalized accumulator: base64 when the
hasher declares `IsBase64` (quickxor), lowercase hex otherwise. -/
def encodeSum (inst : HashInstance) : String :=
  if inst.alg.isBase64 then String.mk (QuickXorHash.base64Encode (inst.alg.sum inst.state))
  else String.mk (hexEncode (inst.alg.sum inst.state))

/-- Go `HashReader` (`internal/hasher`, on a source that reads successfully):
construct one fresh accumulator per hasher, feed every chunk to all of them
through the multi-writer, finalize each and encode it canonically, keyed by
algorithm name.  `none` models the Go error when no hashers are given; a
failing read would abort with an error before any digest is produced. -/
def HashReader (chunks : List (List Nat)) (hashers : List Hasher) :
    Option (List (String × String)) :=
  if hashers.isEmpty then none
  else
    some ((copyChunks (hashers.map mkInstance) chunks).map
      fun inst => (inst.alg.name, encodeSum inst))

/-- Running one algorithm alone over the same source: one fresh accumulator
absorbs every chunk in order, then is finalized and canonically encoded. -/
def runAlone (h : Hasher) (chunks : List (List Nat)) : String :=
  encodeSum ⟨h.1, h.2, chunks.foldl h.2.write h.2.new⟩

/-- The `quickxor` registry entry (`internal/hasher/quickxor.go`): fresh
accumulators from `pkg/quickxorhash`, base64-encoded output. -/
def quickxorHasher : Hasher :=
  ⟨QuickXorHash.QXH,
   { name := "quickxor", new := QuickXorHash.new, write := QuickXorHash.Write,
     sum := QuickXorHash.Sum, isBase64 := true }⟩

/-- The fan-out state after all chunks: each accumulator has absorbed every
chunk independently, in order. -/
theorem copyChunks_map (chunks : List (List Nat)) (insts : List HashInstance) :
    copyChunks insts chunks
      = insts.map (fun i => ⟨i.σ, i.alg, chunks.foldl i.alg.write i.state⟩) := by
  induction chunks generalizing insts with
  | nil =>
    simp only [copyChunks, List.foldl_nil]
    have hid : (fun i : HashInstance =>
        (⟨i.σ, i.alg, i.state⟩ : HashInstance)) = fun i => i := by
      funext i
      rfl
    rw [hid, List.map_id']
  | cons c cc ih =>
    show copyChunks (multiWrite insts c) cc = _
    rw [ih]
    show (insts.map (writeChunk c)).map _ = _
    rw [List.map_map]
    rfl

/-- Looking up a name in the fan-out's result list, when names are distinct,
finds that hasher's own entry. -/
theorem lookup_map_name (hashers : List Hasher) (f : Hasher → String) (h : Hasher)
    (hmem : h ∈ hashers) (hnodup : (hashers.map (fun x => x.2.name)).Nodup) :
    (hashers.map (fun x => (x.2.name, f x))).lookup h.2.name = some (f h) := by
  induction hashers with
  | nil => cases hmem
  | cons a t ih =>
    simp only [List.map_cons, List.nodup_cons, List.mem_map] at hnodup
    rcases List.mem_cons.mp hmem with heq | hmemt
    · subst heq
      simp [List.lookup]
    · have hne2 : h.2.name ≠ a.2.name := by
        intro hc
        exact hnodup.1 ⟨h, hmemt, hc⟩
      have hbeq : (h.2.name == a.2.name) = false := by
        simpa using hne2
      simp only [List.map_cons, List.lookup, hbeq]
      exact ih hmemt hnodup.2

end Hasher

/-- C2: the multi-hash fan-out never perturbs an individual algorithm's
digest: for every chunked byte source, every list of hashers with distinct
names containing hasher `h`, `HashReader`'s entry for `h`'s name is exactly
the canonical-encoded digest of running `h` alone over the same source. -/
theorem C2_fanout_preserves_individual (chunks : List (List Nat))
    (hashers : List Hasher.Hasher) (h : Hasher.Hasher) (hmem : h ∈ hashers)
    (hnodup : (hashers.map (fun x => x.2.name)).Nodup) :
    ∃ res, Hasher.HashReader chunks hashers = some res ∧
      res.lookup h.2.name = some (Hasher.runAlone h chunks) := by
  have hne : hashers.isEmpty = false := by
    cases hashers with
    | nil => cases hmem
    | cons a t => rfl
  refine ⟨_, by rw [Hasher.HashReader, hne]; rfl, ?_⟩
  rw [Hasher.copyChunks_map, List.map_map, List.map_map]
  have hfun : (((fun inst : Hasher.HashInstance => (inst.alg.name, Hasher.encodeSum inst)) ∘
        (fun i : Hasher.HashInstance =>
          (⟨i.σ, i.alg, chunks.foldl i.alg.write i.state⟩ : Hasher.HashInstance))) ∘
        Hasher.mkInstance)
      = fun x : Hasher.Hasher => (x.2.name, Hasher.runAlone x chunks) := by
    funext x
    rfl
  rw [hfun]
  exact Hasher.lookup_map_name hashers (fun x => Hasher.runAlone x chunks) h hmem hnodup

/-- Witness for C2: the fan-out over the two-byte source `[104, 105]` with the
singleton hasher list `[quickxor]` reports exactly the digest of running
quickxor alone. -/
theorem C2_fanout_witness :
    Hasher.quickxorHasher ∈ [Hasher.quickxorHasher] ∧
    (([Hasher.quickxorHasher] : List Hasher.Hasher).map (fun x => x.2.name)).Nodup ∧
    ∃ res, Hasher.HashReader [[104, 105]] [Hasher.quickxorHasher] = some res ∧
      res.lookup Hasher.quickxorHasher.2.name
        = some (Hasher.runAlone Hasher.quickxorHasher [[104, 105]]) :=
  ⟨List.mem_singleton.mpr rfl, by simp,
   C2_fanout_preserves_individual [[104, 105]] [Hasher.quickxorHasher]
     Hasher.quickxorHasher (List.mem_singleton.mpr rfl) (by simp)⟩

namespace GoStrings

/-- Go `unicode.IsSpace` on the ASCII range (all strings the repository
trims are ASCII): space, tab, newline, vertical tab, form feed, carriage
return. -/
def isSpace (c : Char) : Bool :=
  c = ' ' ∨ c = '\t' ∨ c = '\n' ∨ c = '\x0b' ∨ c = '\x0c' ∨ c = '\r'

/-- Go `strings.TrimSpace` (ASCII range): drop leading and trailing
whitespace. -/
def trimSpace (s : String) : String :=
  String.mk (((s.toList.dropWhile isSpace).reverse.dropWhile isSpace).reverse)

/-- Go `strings.ToLower` on ASCII (registry names and extensions are
ASCII). -/
def toLower (s : String) : String := String.mk (s.toList.map Char.toLower)

/-- Go `strings.Split(s, ",")` on the character list: split at every comma;
the empty input has one empty field. -/
def splitCommaList : List Char → List (List Char)
  | [] => [[]]
  | c :: rest =>
    if c = ',' then [] :: splitCommaList rest
    else
      match splitCommaList rest with
      | [] => [[c]]
      | f :: fs => (c :: f) :: fs

/-- Go `strings.Split(s, ",")`. -/
def splitComma (s : String) : List String :=
  (splitCommaList s.toList).map String.mk

end GoStrings

namespace GoPath

/-- Path separator of the modelled Unix build of Go `path/filepath`
(`matchGlob` normalizes paths to this form before matching). -/
def Separator : Char := '/'

/-- Result of Go `matchChunk`: `ErrBadPattern`, no match, or a match leaving
the remaining name. -/
inductive ChunkRes where
  | bad
  | nomatch
  | ok (rest : List Char)
  deriving DecidableEq, Repr

/-- Go `getEsc`: read one (possibly `\`-escaped) character of a bracket
class; `none` models `ErrBadPattern` (empty class part, stray `-` or `]`,
escape at end, or nothing left after the character). -/
def getEsc (chunk : List Char) : Option (Char × List Char) :=
  match chunk with
  | [] => none
  | c :: rest =>
    if c = '-' ∨ c = ']' then none
    else if c = '\\' then
      match rest with
      | [] => none
      | r :: rest2 => if rest2 = [] then none else some (r, rest2)
    else if rest = [] then none
    else some (c, rest)

/-- `getEsc` consumes at least one character. -/
theorem getEsc_length (chunk : List Char) (r : Char) (rest : List Char)
    (h : getEsc chunk = some (r, rest)) : rest.length < chunk.length := by
  cases chunk with
  | nil => simp [getEsc] at h
  | cons c cr =>
    cases cr with
    | nil =>
      simp only [getEsc] at h
      split_ifs at h <;> simp_all
    | cons c2 cr2 =>
      simp only [getEsc] at h
      split_ifs at h <;> simp_all <;> omega

/-- The bracket-class loop of Go `matchChunk`: consume `lo`/`lo-hi` entries
until the closing `]`, recording whether the rune `r` fell in any range;
`none` models `ErrBadPattern`. -/
def matchRanges (r : Char) (chunk : List Char) (mtch : Bool) (nrange : Nat) :
    Option (Bool × List Char) :=
  if chunk ≠ [] ∧ chunk.headD ' ' = ']' ∧ 0 < nrange then
    some (mtch, chunk.tail)
  else
    match hesc : getEsc chunk with
    | none => none
    | some (lo, rest1) =>
      if rest1.headD ' ' = '-' then
        match hesc2 : getEsc rest1.tail with
        | none => none
        | some (hi, rest2) =>
          matchRanges r rest2 (mtch || (decide (lo ≤ r) && decide (r ≤ hi))) (nrange + 1)
      else
        matchRanges r rest1 (mtch || (decide (lo ≤ r) && decide (r ≤ lo))) (nrange + 1)
termination_by chunk.length
decreasing_by
  · have h1 := getEsc_length _ _ _ hesc
    have h2 := getEsc_length _ _ _ hesc2
    have h3 : rest1.tail.length ≤ rest1.length := by
      cases rest1 <;> simp
    omega
  · have h1 := getEsc_length _ _ _ hesc
    omega

/-- The class loop only consumes pattern characters. -/
theorem matchRanges_length (r : Char) : ∀ (n : Nat) (chunk : List Char), chunk.length ≤ n →
    ∀ (mtch : Bool) (nrange : Nat) (res : Bool) (rest : List Char),
      matchRanges r chunk mtch nrange = some (res, rest) → rest.length ≤ chunk.length := by
  intro n
  induction n with
  | zero =>
    intro chunk hlen mtch nrange res rest h
    have hc : chunk = [] := List.eq_nil_of_length_eq_zero (by omega)
    subst hc
    unfold matchRanges at h
    simp [getEsc] at h
  | succ k ih =>
    intro chunk hlen mtch nrange res rest h
    unfold matchRanges at h
    split at h
    · cases h
      cases chunk <;> simp
    · split at h
      · cases h
      · rename_i lo rest1 hesc
        split at h
        · split at h
          · cases h
          · rename_i hi rest2 hesc2
            have g1 := getEsc_length _ _ _ hesc
            have g2 := getEsc_length _ _ _ hesc2
            have g3 : rest1.tail.length ≤ rest1.length := by
              cases rest1 <;> simp
            have g4 := ih rest2 (by omega) _ _ _ _ h
            omega
        · have g1 := getEsc_length _ _ _ hesc
          have g4 := ih rest1 (by omega) _ _ _ _ h
          omega

/-- Go `matchChunk`: match the starless chunk against the head of `s`; on
success return the remaining name.  As in the Go source, after a mismatch
the chunk keeps being scanned so malformed patterns still yield
`ErrBadPattern`, and `?` refuses to match the separator. -/
def matchChunk (chunk s : List Char) (failed0 : Bool) : ChunkRes :=
  match chunk with
  | [] => if failed0 then .nomatch else .ok s
  | c :: rest =>
    let failed := failed0 || s.isEmpty
    if c = '[' then
      let r := if failed then Char.ofNat 0 else s.headD (Char.ofNat 0)
      let s1 := if failed then s else s.tail
      let negated : Bool := decide (rest ≠ [] ∧ rest.headD ' ' = '^')
      match hmr : matchRanges r
          (if rest ≠ [] ∧ rest.headD ' ' = '^' then rest.tail else rest) false 0 with
      | none => .bad
      | some (mtch, chunk2) =>
        matchChunk chunk2 s1 (if mtch = negated then true else failed)
    else if c = '?' then
      let failed2 := if ¬failed ∧ s.headD ' ' = Separator then true else failed
      let s1 := if failed then s else s.tail
      matchChunk rest s1 failed2
    else if c = '\\' then
      match rest with
      | [] => .bad
      | c2 :: rest2 =>
        let failed2 := if ¬failed ∧ ¬(s.headD ' ' = c2) then true else failed
        let s1 := if failed then s else s.tail
        matchChunk rest2 s1 failed2
    else
      let failed2 := if ¬failed ∧ ¬(s.headD ' ' = c) then true else failed
      let s1 := if failed then s else s.tail
      matchChunk rest s1 failed2
termination_by chunk.length
decreasing_by
  · have h2 := matchRanges_length _ _ _ (Nat.le_refl _) _ _ _ _ hmr
    split at h2
    all_goals try simp only [List.length_tail] at h2
    all_goals simp only [List.length_cons]
    all_goals omega
  · simp only [List.length_cons]
    omega
  · simp only [List.length_cons]
    omega
  · simp only [List.length_cons]
    omega

/-- Go `scanChunk`'s leading-star loop: `star` records whether any `*` was
stripped, and every leading `*` is dropped. -/
def dropStars (pattern : List Char) : Bool × List Char :=
  (decide (pattern.headD ' ' = '*'), pattern.dropWhile (fun c => c = '*'))

/-- The scan loop of Go `scanChunk`: cut the pattern at the next `*` that is
neither escaped nor inside a bracket class. -/
def scanChunkSplit (inrange : Bool) : List Char → List Char × List Char
  | [] => ([], [])
  | c :: rest =>
    if c = '*' ∧ inrange = false then ([], c :: rest)
    else if c = '\\' then
      match rest with
      | [] => ([c], [])
      | c2 :: rest2 =>
        let pr := scanChunkSplit inrange rest2
        (c :: c2 :: pr.1, pr.2)
    else
      let inrange2 := if c = '[' then true else if c = ']' then false else inrange
      let pr := scanChunkSplit inrange2 rest
      (c :: pr.1, pr.2)

/-- Go `scanChunk`: strip leading `*`s, then split off the next chunk. -/
def scanChunk (pattern : List Char) : Bool × List Char × List Char :=
  let st := dropStars pattern
  let pr := scanChunkSplit false st.2
  (st.1, pr.1, pr.2)

/-- `dropWhile` never lengthens a list. -/
theorem dropWhile_length_le (p : Char → Bool) (l : List Char) :
    (l.dropWhile p).length ≤ l.length := by
  induction l with
  | nil => simp
  | cons a t ih =>
    rw [List.dropWhile_cons]
    split
    · simp only [List.length_cons]
      omega
    · simp

/-- Stripping leading stars from a star-headed pattern shortens it. -/
theorem dropStars_lt (p : List Char) (h : (dropStars p).1 = true) :
    (dropStars p).2.length < p.length := by
  cases p with
  | nil => simp [dropStars] at h
  | cons c rest =>
    simp only [dropStars, List.headD_cons, decide_eq_true_eq] at h
    have hlen := dropWhile_length_le (fun c => decide (c = '*')) rest
    simp only [dropStars, List.dropWhile_cons, h, List.length_cons]
    simp only [decide_True, if_true]
    omega

/-- With no leading star the pattern is unchanged. -/
theorem dropStars_eq (p : List Char) (h : (dropStars p).1 = false) :
    (dropStars p).2 = p := by
  cases p with
  | nil => simp [dropStars]
  | cons c rest =>
    simp only [dropStars, List.headD_cons, decide_eq_false_iff_not] at h
    simp [dropStars, List.dropWhile_cons, h]

/-- After star stripping the head is never a star. -/
theorem dropStars_head (p : List Char) : ¬ ((dropStars p).2.headD ' ' = '*') := by
  induction p with
  | nil => simp [dropStars]
  | cons c rest ih =>
    by_cases hc : c = '*'
    · simpa [dropStars, List.dropWhile_cons, hc] using ih
    · simp [dropStars, List.dropWhile_cons, hc]

/-- `scanChunkSplit` splits the pattern without losing characters. -/
theorem scanChunkSplit_length : ∀ (n : Nat) (p : List Char) (ir : Bool), p.length ≤ n →
    (scanChunkSplit ir p).1.length + (scanChunkSplit ir p).2.length = p.length := by
  intro n
  induction n with
  | zero =>
    intro p ir hlen
    have hp : p = [] := List.eq_nil_of_length_eq_zero (by omega)
    subst hp
    simp [scanChunkSplit.eq_1]
  | succ k ih =>
    intro p ir hlen
    match p with
    | [] => simp [scanChunkSplit.eq_1]
    | [c] =>
      rw [scanChunkSplit.eq_2]
      split_ifs <;> simp [scanChunkSplit.eq_1]
    | c :: c2 :: rest =>
      rw [scanChunkSplit.eq_3]
      by_cases h1 : c = '*' ∧ ir = false
      · rw [if_pos h1]
        simp
      · rw [if_neg h1]
        by_cases h2 : c = '\\'
        · rw [if_pos h2]
          have hx := ih rest ir (by simp only [List.length_cons] at hlen ⊢; omega)
          simp only [List.length_cons]
          omega
        · rw [if_neg h2]
          have hx := ih (c2 :: rest) (if c = '[' then true else if c = ']' then false else ir)
            (by simp only [List.length_cons] at hlen ⊢; omega)
          simp only [List.length_cons] at hx ⊢
          omega

/-- When the head is not a star boundary, the chunk is nonempty. -/
theorem scanChunkSplit_ne (ir : Bool) (c : Char) (rest : List Char)
    (h : ¬ (c = '*' ∧ ir = false)) : (scanChunkSplit ir (c :: rest)).1 ≠ [] := by
  cases rest with
  | nil =>
    rw [scanChunkSplit.eq_2, if_neg h]
    split <;> simp
  | cons c2 rest2 =>
    rw [scanChunkSplit.eq_3, if_neg h]
    split <;> simp

/-- The rest of the pattern after `scanChunk` is strictly shorter. -/
theorem scanChunk_rest_lt (pattern : List Char) (hne : pattern ≠ []) :
    (scanChunk pattern).2.2.length < pattern.length := by
  show (scanChunkSplit false (dropStars pattern).2).2.length < pattern.length
  cases hst : (dropStars pattern).1 with
  | true =>
    have h1 := dropStars_lt pattern hst
    have h2 := scanChunkSplit_length (dropStars pattern).2.length (dropStars pattern).2
      false (Nat.le_refl _)
    omega
  | false =>
    have h1 := dropStars_eq pattern hst
    have h2 := scanChunkSplit_length (dropStars pattern).2.length (dropStars pattern).2
      false (Nat.le_refl _)
    have h3 := dropStars_head pattern
    rw [h1] at h2 h3 ⊢
    cases pattern with
    | nil => cases hne rfl
    | cons c rest =>
      have hns : ¬ (c = '*' ∧ false = false) := by
        simp only [List.headD_cons] at h3
        simp [h3]
      have h4 := scanChunkSplit_ne false c rest hns
      have h5 : (scanChunkSplit false (c :: rest)).1.length ≠ 0 := by
        simpa using fun hc => h4 (List.eq_nil_of_length_eq_zero hc)
      simp only [List.length_cons] at h2 ⊢
      omega


/-- The skip loop of a `*` in Go `Match`: try the chunk at each later byte
of the name, stopping at the separator; `some t` resumes the outer loop
with the remaining name `t`, `none` means overall failure (no position
matched, or `ErrBadPattern`). -/
def starLoop (chunk restPat : List Char) : List Char → Option (List Char)
  | [] => none
  | c :: nameTail =>
    if c = Separator then none
    else
      match matchChunk chunk nameTail false with
      | .bad => none
      | .ok t => if restPat = [] ∧ t ≠ [] then starLoop chunk restPat nameTail else some t
      | .nomatch => starLoop chunk restPat nameTail

/-- The outer loop of Go `filepath.Match` on character lists.  A trailing
bare `*` matches any separator-free remainder; otherwise the next chunk is
matched directly and, under a star, at every later skip position.  The Go
source ends by rescanning the remaining pattern for syntax errors; that scan
only affects the error value, which the caller discards, so it is not
modelled. -/
def goMatchList (pattern name : List Char) : Bool :=
  if hpat : pattern = [] then name.isEmpty
  else
    let sc := scanChunk pattern
    if sc.1 ∧ sc.2.1 = [] then ! name.contains Separator
    else
      match matchChunk sc.2.1 name false with
      | .ok t =>
        if t = [] ∨ sc.2.2 ≠ [] then goMatchList sc.2.2 t
        else if sc.1 then
          match starLoop sc.2.1 sc.2.2 name with
          | some t2 => goMatchList sc.2.2 t2
          | none => false
        else false
      | .bad => false
      | .nomatch =>
        if sc.1 then
          match starLoop sc.2.1 sc.2.2 name with
          | some t2 => goMatchList sc.2.2 t2
          | none => false
        else false
termination_by pattern.length
decreasing_by
  all_goals exact scanChunk_rest_lt pattern hpat

/-- Go `filepath.Match` as the filter uses it: the matched boolean, with any
`ErrBadPattern` collapsed to `false`, exactly as `m, _ := filepath.Match(p, n)`
discards the error. -/
def goMatch (pattern name : String) : Bool :=
  goMatchList pattern.toList name.toList

/-- Go `filepath.Ext`: the suffix of the path starting at the final dot of
the last path element; empty if that element has no dot.  The scan runs from
the end of the path, stopping at the separator. -/
def extRevLoop : List Char → List Char → List Char
  | [], _ => []
  | c :: rest, acc =>
    if c = Separator then []
    else if c = '.' then c :: acc
    else extRevLoop rest (c :: acc)

/-- Go `filepath.Ext`. -/
def goExt (path : String) : String :=
  String.mk (extRevLoop path.toList.reverse [])

/-- Go `filepath.Base` on the modelled Unix build: strip trailing
separators, then keep everything after the last separator; `"."` for the
empty path and `"/"` when the path is all separators. -/
def goBase (path : String) : String :=
  if path = "" then "."
  else
    let l := path.toList.reverse.dropWhile (fun c => c = Separator)
    if l = [] then "/"
    else String.mk ((l.takeWhile (fun c => ¬ c = Separator)).reverse)

/-- Go `filepath.ToSlash` on the modelled Unix build: the separator already
is `'/'`, so this is the identity. -/
def toSlash (path : String) : String := path

end GoPath

namespace Scanner

/-- Go `FilterOptions` (`internal/scanner/filter.go`): size bounds
(`int64`, 0 = no bound), extension allow/deny lists, glob allow/deny
lists. -/
structure FilterOptions where
  MaxSize : Int
  MinSize : Int
  IncludeExts : List String
  ExcludeExts : List String
  IncludeGlobs : List String
  ExcludeGlobs : List String
  deriving DecidableEq, Repr

/-- Go `normalizeExt`: ensure a leading dot (`strings.HasPrefix(ext, ".")`
decided by the first character). -/
def normalizeExt (ext : String) : String :=
  if ext = "" then ""
  else if ¬ (ext.toList.headD ' ' = '.') then "." ++ ext
  else ext

/-- Go `matchExtension`: a non-empty include list must contain the path's
lowercase extension (and then the exclude list is never consulted);
otherwise a non-empty exclude list must not contain it. -/
def matchExtension (f : FilterOptions) (path : String) : Bool :=
  let ext := GoStrings.toLower (GoPath.goExt path)
  if f.IncludeExts.length > 0 then
    f.IncludeExts.any (fun e => GoStrings.toLower (normalizeExt e) == ext)
  else if f.ExcludeExts.length > 0 then
    ! f.ExcludeExts.any (fun e => GoStrings.toLower (normalizeExt e) == ext)
  else true

/-- One glob pattern tried against the separator-normalized full path and
against the base name, as `matchGlob` does for every pattern. -/
def globHits (pattern path : String) : Bool :=
  GoPath.goMatch pattern (GoPath.toSlash path) || GoPath.goMatch pattern (GoPath.goBase path)

/-- Go `matchGlob`: with include patterns, at least one must hit; then —
unlike the extension filter — the exclude patterns are still consulted and
any hit rejects. -/
def matchGlob (f : FilterOptions) (path : String) : Bool :=
  if f.IncludeGlobs.length > 0 ∧ ¬ (f.IncludeGlobs.any (fun pat => globHits pat path)) then
    false
  else if f.ExcludeGlobs.length > 0 then
    ! f.ExcludeGlobs.any (fun pat => globHits pat path)
  else true

/-- Go `FilterOptions.Match`: size bounds, then extension filter, then glob
filter. -/
def Match (f : FilterOptions) (path : String) (size : Int) : Bool :=
  if f.MaxSize > 0 ∧ size > f.MaxSize then false
  else if f.MinSize > 0 ∧ size < f.MinSize then false
  else if ¬ matchExtension f path then false
  else if ¬ matchGlob f path then false
  else true

end Scanner

/-- C8: with no extension or glob criteria configured, `Match` rejects a
path exactly when its size falls outside the configured bounds, where a
zero bound means unbounded on that side. -/
theorem C8_size_bounds (f : Scanner.FilterOptions) (path : String) (size : Int)
    (hie : f.IncludeExts = []) (hee : f.ExcludeExts = [])
    (hig : f.IncludeGlobs = []) (heg : f.ExcludeGlobs = []) :
    Scanner.Match f path size = false ↔
      ((f.MaxSize > 0 ∧ size > f.MaxSize) ∨ (f.MinSize > 0 ∧ size < f.MinSize)) := by
  have hext : Scanner.matchExtension f path = true := by
    simp [Scanner.matchExtension, hie, hee]
  have hglob : Scanner.matchGlob f path = true := by
    simp [Scanner.matchGlob, hig, heg]
  unfold Scanner.Match
  rw [hext, hglob]
  by_cases h1 : f.MaxSize > 0 ∧ size > f.MaxSize
  · rw [if_pos h1]
    simp [h1]
  · rw [if_neg h1]
    by_cases h2 : f.MinSize > 0 ∧ size < f.MinSize
    · rw [if_pos h2]
      simp [h1, h2]
    · rw [if_neg h2]
      simp [h1, h2]

/-- Witness for C8: a filter with only a 100-byte upper bound rejects a
150-byte file and accepts nothing-else-is-wrong sizes. -/
theorem C8_size_bounds_witness :
    (Scanner.Match ⟨100, 0, [], [], [], []⟩ "a.txt" 150 = false ↔
      (((100 : Int) > 0 ∧ (150 : Int) > 100) ∨ ((0 : Int) > 0 ∧ (150 : Int) < 0))) ∧
    Scanner.Match ⟨100, 0, [], [], [], []⟩ "a.txt" 150 = false :=
  ⟨C8_size_bounds ⟨100, 0, [], [], [], []⟩ "a.txt" 150 rfl rfl rfl rfl,
   (C8_size_bounds ⟨100, 0, [], [], [], []⟩ "a.txt" 150 rfl rfl rfl rfl).mpr
     (Or.inl (by decide))⟩

/-- Concrete evaluation of the glob matcher: `*.txt` matches `a.txt`. -/
theorem goMatch_star_txt : GoPath.goMatch "*.txt" "a.txt" = true := by
  simp [GoPath.goMatch, GoPath.goMatchList, GoPath.scanChunk, GoPath.dropStars,
    GoPath.scanChunkSplit, GoPath.matchChunk, GoPath.starLoop, GoPath.Separator,
    GoPath.getEsc]

/-- C4-counterexample: the claim fails for the glob category.  With
include-glob `*.txt` and exclude-glob `*.txt`, the path `a.txt` (size 1,
within bounds) matches the include glob, yet `Match` rejects it: the
exclude-glob list is consulted even after an include-glob hit. -/
theorem C4_allow_precedence_counterexample :
    GoPath.goMatch "*.txt" (GoPath.toSlash "a.txt") = true ∧
    Scanner.Match ⟨0, 0, [], [], ["*.txt"], ["*.txt"]⟩ "a.txt" 1 = false := by
  refine ⟨goMatch_star_txt, ?_⟩
  simp [Scanner.Match, Scanner.matchExtension, Scanner.matchGlob, Scanner.globHits,
    GoPath.toSlash, goMatch_star_txt]

/-- C4-amended: the allow-over-deny precedence holds for extensions only.
With a non-empty include-extension list, a path whose lowercase extension
matches an include entry passes `matchExtension` regardless of the exclude
list; but any matching exclude glob makes `matchGlob` — and therefore
`Match` — false, even when an include glob also matches. -/
theorem C4_allow_precedence_amended (f : Scanner.FilterOptions) (path : String) (size : Int) :
    (f.IncludeExts.any
        (fun e => GoStrings.toLower (Scanner.normalizeExt e)
          == GoStrings.toLower (GoPath.goExt path)) = true →
      Scanner.matchExtension f path = true) ∧
    (f.ExcludeGlobs.any (fun pat => Scanner.globHits pat path) = true →
      Scanner.matchGlob f path = false ∧ Scanner.Match f path size = false) := by
  constructor
  · intro h
    have hne : f.IncludeExts.length > 0 := by
      cases hi : f.IncludeExts with
      | nil => rw [hi] at h; simp at h
      | cons a t => simp [hi]
    simp only [Scanner.matchExtension]
    rw [if_pos hne]
    exact h
  · intro h
    have hlen : f.ExcludeGlobs.length > 0 := by
      cases hi : f.ExcludeGlobs with
      | nil => rw [hi] at h; simp at h
      | cons a t => simp [hi]
    have hg : Scanner.matchGlob f path = false := by
      simp [Scanner.matchGlob, h, hlen]
    refine ⟨hg, ?_⟩
    simp only [Scanner.Match]
    split_ifs <;> simp_all [hg]

/-- Witness for C4-amended at concrete inputs: extension allow beats
extension deny for `a.txt` under include `txt` and exclude `.txt`; and the
shared include/exclude glob `*.txt` rejects `a.txt`. -/
theorem C4_allow_precedence_amended_witness :
    ((["txt"] : List String).any
        (fun e => GoStrings.toLower (Scanner.normalizeExt e)
          == GoStrings.toLower (GoPath.goExt "a.txt")) = true ∧
      Scanner.matchExtension ⟨0, 0, ["txt"], [".txt"], [], []⟩ "a.txt" = true) ∧
    ((["*.txt"] : List String).any (fun pat => Scanner.globHits pat "a.txt") = true ∧
      Scanner.matchGlob ⟨0, 0, [], [], ["*.txt"], ["*.txt"]⟩ "a.txt" = false ∧
      Scanner.Match ⟨0, 0, [], [], ["*.txt"], ["*.txt"]⟩ "a.txt" 1 = false) := by
  have hext : (["txt"] : List String).any
      (fun e => GoStrings.toLower (Scanner.normalizeExt e)
        == GoStrings.toLower (GoPath.goExt "a.txt")) = true := by
    decide
  have hgl : (["*.txt"] : List String).any (fun pat => Scanner.globHits pat "a.txt")
      = true := by
    simp [Scanner.globHits, GoPath.toSlash, goMatch_star_txt]
  exact ⟨⟨hext, (C4_allow_precedence_amended ⟨0, 0, ["txt"], [".txt"], [], []⟩ "a.txt" 1).1 hext⟩,
    ⟨hgl, (C4_allow_precedence_amended ⟨0, 0, [], [], ["*.txt"], ["*.txt"]⟩ "a.txt" 1).2 hgl⟩⟩

namespace Hasher

/-- The lowercase registry keys created by the `init()` registrations in
`internal/hasher` (md5, sha1, sha256, sha512, crc32 in the standard block,
xxh3/xxh128, blake3, quickxor).  Names stand for their descriptors: `Parse`
below returns the selected names in order. -/
def registryNames : List String :=
  ["md5", "sha1", "sha256", "sha512", "crc32", "xxh3", "xxh128", "blake3", "quickxor"]

/-- Go `Get` succeeding: the registry map, keyed by lowercase name, has an
entry for `strings.ToLower(name)`. -/
def getOk (registry : List String) (name : String) : Bool :=
  registry.contains (GoStrings.toLower name)

/-- The errors Go `Parse` returns: `"no algorithms specified"`,
`"unknown algorithm: …"`, `"no valid algorithms specified"`. -/
inductive ParseErr where
  | noAlgorithms
  | unknown (name : String)
  | noValid
  deriving DecidableEq, Repr

/-- One part of the comma-separated list, normalized as Go `Parse` does:
`strings.TrimSpace(strings.ToLower(part))`. -/
def normName (part : String) : String :=
  GoStrings.trimSpace (GoStrings.toLower part)

/-- The loop of Go `Parse`: skip blank and already-seen names, collect
registered names in order, fail on the first unregistered name. -/
def parseLoop (registry : List String) (seen acc : List String) :
    List String → Except ParseErr (List String)
  | [] => .ok acc
  | part :: rest =>
    let name := normName part
    if name = "" then parseLoop registry seen acc rest
    else if seen.contains name then parseLoop registry seen acc rest
    else if getOk registry name then parseLoop registry (name :: seen) (acc ++ [name]) rest
    else .error (.unknown name)

/-- Go `Parse`: empty input is an error; otherwise run the loop over the
comma-separated parts and reject an empty selection. -/
def Parse (registry : List String) (names : String) : Except ParseErr (List String) :=
  if names = "" then .error .noAlgorithms
  else
    match parseLoop registry [] [] (GoStrings.splitComma names) with
    | .error e => .error e
    | .ok hs => if hs = [] then .error .noValid else .ok hs

/-- The only error the loop itself produces is `unknown`. -/
theorem parseLoop_error_unknown (registry : List String) (parts : List String) :
    ∀ seen acc e, parseLoop registry seen acc parts = .error e → ∃ nm, e = .unknown nm := by
  induction parts with
  | nil =>
    intro seen acc e h
    simp only [parseLoop] at h
    cases h
  | cons part rest ih =>
    intro seen acc e h
    simp only [parseLoop] at h
    split_ifs at h
    · exact ih _ _ _ h
    · exact ih _ _ _ h
    · exact ih _ _ _ h
    · cases h
      exact ⟨_, rfl⟩

/-- An unregistered non-blank entry anywhere in the remaining parts forces
an `unknown` error (the names already seen are all registered). -/
theorem parseLoop_unknown (registry : List String) (parts : List String) :
    ∀ seen acc, (∀ x ∈ seen, getOk registry x = true) →
    (∃ p ∈ parts, normName p ≠ "" ∧ getOk registry (normName p) = false) →
    ∃ nm, parseLoop registry seen acc parts = .error (.unknown nm)
      ∧ getOk registry nm = false := by
  induction parts with
  | nil =>
    intro seen acc hseen hex
    obtain ⟨p, hp, _⟩ := hex
    cases hp
  | cons part rest ih =>
    intro seen acc hseen hex
    simp only [parseLoop]
    by_cases h1 : normName part = ""
    · rw [if_pos h1]
      apply ih seen acc hseen
      obtain ⟨p, hp, hne2, hnr⟩ := hex
      rcases List.mem_cons.mp hp with rfl | hmem
      · exact absurd h1 hne2
      · exact ⟨p, hmem, hne2, hnr⟩
    · rw [if_neg h1]
      by_cases h2 : seen.contains (normName part) = true
      · rw [if_pos h2]
        apply ih seen acc hseen
        obtain ⟨p, hp, hne2, hnr⟩ := hex
        rcases List.mem_cons.mp hp with rfl | hmem
        · exfalso
          have hmemseen : normName p ∈ seen := by
            simpa using h2
          rw [hseen _ hmemseen] at hnr
          cases hnr
        · exact ⟨p, hmem, hne2, hnr⟩
      · rw [if_neg h2]
        by_cases h3 : getOk registry (normName part) = true
        · rw [if_pos h3]
          apply ih
          · intro x hx
            rcases List.mem_cons.mp hx with rfl | hxm
            · exact h3
            · exact hseen _ hxm
          · obtain ⟨p, hp, hne2, hnr⟩ := hex
            rcases List.mem_cons.mp hp with rfl | hmem
            · rw [h3] at hnr
              cases hnr
            · exact ⟨p, hmem, hne2, hnr⟩
        · rw [if_neg h3]
          refine ⟨normName part, rfl, ?_⟩
          simpa using h3

/-- All-blank parts leave the accumulator untouched. -/
theorem parseLoop_blank (registry : List String) (parts : List String) :
    ∀ seen acc, (∀ p ∈ parts, normName p = "") →
      parseLoop registry seen acc parts = .ok acc := by
  induction parts with
  | nil =>
    intro seen acc _
    rfl
  | cons part rest ih =>
    intro seen acc hall
    simp only [parseLoop]
    rw [if_pos (hall part (List.mem_cons_self _ _))]
    exact ih seen acc (fun p hp => hall p (List.mem_cons_of_mem _ hp))

/-- A successful loop only ever extends the accumulator; an unextended
result means every part was blank or already seen. -/
theorem parseLoop_ok_ext (registry : List String) (parts : List String) :
    ∀ seen acc res, parseLoop registry seen acc parts = .ok res →
      ∃ ext, res = acc ++ ext ∧
        (ext = [] → ∀ p ∈ parts, normName p = "" ∨ seen.contains (normName p) = true) := by
  induction parts with
  | nil =>
    intro seen acc res h
    simp only [parseLoop] at h
    cases h
    exact ⟨[], by simp, fun _ p hp => absurd hp (List.not_mem_nil p)⟩
  | cons part rest ih =>
    intro seen acc res h
    simp only [parseLoop] at h
    split_ifs at h with h1 h2 h3
    · obtain ⟨ext, hres, himp⟩ := ih _ _ _ h
      refine ⟨ext, hres, fun he p hp => ?_⟩
      rcases List.mem_cons.mp hp with rfl | hm
      · exact Or.inl h1
      · exact himp he p hm
    · obtain ⟨ext, hres, himp⟩ := ih _ _ _ h
      refine ⟨ext, hres, fun he p hp => ?_⟩
      rcases List.mem_cons.mp hp with rfl | hm
      · exact Or.inr h2
      · exact himp he p hm
    · obtain ⟨ext, hres, _⟩ := ih _ _ _ h
      refine ⟨[normName part] ++ ext, by simpa using hres, ?_⟩
      intro he
      simp at he

end Hasher

/-- C7: algorithm-selection parsing trims whitespace, lowercases, and drops
duplicates, so `"MD5, sha256 , md5"` parses to the same ordered selection as
`"md5,sha256"`; any non-blank unregistered entry yields an unknown-algorithm
error naming an unregistered algorithm; and the two empty-selection errors
occur exactly when the input is empty or every entry normalizes to blank. -/
theorem C7_parse_selection (names : String) :
    Hasher.Parse Hasher.registryNames "MD5, sha256 , md5"
      = Hasher.Parse Hasher.registryNames "md5,sha256" ∧
    ((∃ p ∈ GoStrings.splitComma names, Hasher.normName p ≠ "" ∧
        Hasher.getOk Hasher.registryNames (Hasher.normName p) = false) →
      ∃ nm, Hasher.Parse Hasher.registryNames names
          = .error (.unknown nm) ∧
        Hasher.getOk Hasher.registryNames nm = false) ∧
    ((Hasher.Parse Hasher.registryNames names = .error .noAlgorithms ∨
        Hasher.Parse Hasher.registryNames names = .error .noValid) ↔
      (names = "" ∨ ∀ p ∈ GoStrings.splitComma names, Hasher.normName p = "")) := by
  refine ⟨rfl, ?_, ?_⟩
  · intro hex
    have hne : names ≠ "" := by
      intro h0
      subst h0
      obtain ⟨p, hp, hne2, _⟩ := hex
      simp [GoStrings.splitComma, GoStrings.splitCommaList] at hp
      subst hp
      exact hne2 rfl
    simp only [Hasher.Parse]
    rw [if_neg hne]
    obtain ⟨nm, hloop, hreg⟩ := Hasher.parseLoop_unknown _ _ [] []
      (by intro x hx; cases hx) hex
    rw [hloop]
    exact ⟨nm, rfl, hreg⟩
  · constructor
    · intro hor
      by_cases h0 : names = ""
      · exact Or.inl h0
      · right
        simp only [Hasher.Parse] at hor
        rw [if_neg h0] at hor
        cases hloop : Hasher.parseLoop Hasher.registryNames [] []
            (GoStrings.splitComma names) with
        | error e =>
          rw [hloop] at hor
          obtain ⟨nm, hnm⟩ := Hasher.parseLoop_error_unknown _ _ _ _ _ hloop
          subst hnm
          rcases hor with h | h <;> simp at h
        | ok hs =>
          rw [hloop] at hor
          have hor2 : (if hs = [] then
                (Except.error Hasher.ParseErr.noValid : Except Hasher.ParseErr (List String))
              else Except.ok hs) = Except.error Hasher.ParseErr.noAlgorithms ∨
              (if hs = [] then
                (Except.error Hasher.ParseErr.noValid : Except Hasher.ParseErr (List String))
              else Except.ok hs) = Except.error Hasher.ParseErr.noValid := hor
          have hs0 : hs = [] := by
            by_cases hh : hs = []
            · exact hh
            · rw [if_neg hh] at hor2
              rcases hor2 with h | h <;> simp at h
          obtain ⟨ext, hres, himp⟩ := Hasher.parseLoop_ok_ext _ _ [] [] hs hloop
          have hext : ext = [] := by
            rw [hs0] at hres
            simpa using hres.symm
          intro p hp
          have hdone := himp hext p hp
          simpa using hdone
    · intro hor
      by_cases h0 : names = ""
      · left
        simp only [Hasher.Parse]
        rw [if_pos h0]
      · rcases hor with h | hall
        · exact absurd h h0
        · right
          simp only [Hasher.Parse]
          rw [if_neg h0, Hasher.parseLoop_blank _ _ [] [] hall]
          rfl

/-- Witness for C7 at `"md5,nosuch"`: the entry `nosuch` is non-blank and
unregistered, and `Parse` reports it (or another unregistered name) as an
unknown algorithm. -/
theorem C7_parse_selection_witness :
    (∃ p ∈ GoStrings.splitComma "md5,nosuch", Hasher.normName p ≠ "" ∧
        Hasher.getOk Hasher.registryNames (Hasher.normName p) = false) ∧
    (∃ nm, Hasher.Parse Hasher.registryNames "md5,nosuch"
        = .error (.unknown nm) ∧
      Hasher.getOk Hasher.registryNames nm = false) :=
  ⟨by decide, (C7_parse_selection "md5,nosuch").2.1 (by decide)⟩

namespace Scanner

/-- The error values a scan records in a `Result`.  `errInvalid` is Go's
`fs.ErrInvalid` (path is a directory); `statError` an `os.Stat` failure;
`openError` an open/read failure inside `HashFile`; `noHashers` the
`HashReader` error for an empty hasher list. -/
inductive ScanErr where
  | statError
  | errInvalid
  | openError
  | noHashers
  deriving DecidableEq, Repr

/-- What the filesystem reports for one path: directory flag, size, the
chunk stream a successful open would read, and whether open/read
succeeds. -/
structure FSEntry where
  isDir : Bool
  size : Int
  chunks : List (List Nat)
  readable : Bool
  deriving DecidableEq, Repr

/-- The filesystem as seen through `os.Stat` / `os.Open`: `none` is a stat
failure; `abs` is `filepath.Abs`, modelled as always succeeding. -/
structure FS where
  stat : String → Option FSEntry
  abs : String → String

/-- Go `ErrorStrategy`. -/
inductive ErrorStrategy where
  | SkipOnError
  | FailOnError
  deriving DecidableEq, Repr

/-- Go `Scanner`: worker count, optional filter, selected hashers, error
strategy, recursion and absolute-path flags. -/
structure ScannerCfg where
  Workers : Nat
  Filter : Option FilterOptions
  Hashers : List Hasher.Hasher
  OnError : ErrorStrategy
  Recursive : Bool
  AbsolutePath : Bool

/-- The scan outcome for one path (Go `Result`): path, size, digest map (as
an association list, `none` for Go's nil map) and error. -/
structure Result where
  Path : String
  Size : Int
  Hashes : Option (List (String × String))
  Error : Option ScanErr
  deriving DecidableEq, Repr

/-- Go `hasher.HashFile`: open the file, then run the `HashReader` fan-out
over its chunk stream; returns the digests and the error exactly as the
pair Go returns. -/
def HashFile (fs : FS) (path : String) (hashers : List Hasher.Hasher) :
    Option (List (String × String)) × Option ScanErr :=
  match fs.stat path with
  | none => (none, some .openError)
  | some e =>
    if e.readable then
      match Hasher.HashReader e.chunks hashers with
      | some res => (some res, none)
      | none => (none, some .noHashers)
    else (none, some .openError)

/-- Go `s.Filter != nil && !s.Filter.Match(path, size)`. -/
def filterRejects (s : ScannerCfg) (path : String) (size : Int) : Bool :=
  match s.Filter with
  | some f => ! Match f path size
  | none => false

/-- Go `Scanner.ScanFile`: stat the path (failure → error Result); a
directory fails with `fs.ErrInvalid`; a filtered-out path yields `none`
(Go returns `nil`); otherwise hash the file and build the Result, the path
rewritten through `fs.abs` when `AbsolutePath` is set. -/
def ScanFile (fs : FS) (s : ScannerCfg) (path : String) : Option Result :=
  match fs.stat path with
  | none => some ⟨path, 0, none, some .statError⟩
  | some info =>
    if info.isDir then some ⟨path, 0, none, some .errInvalid⟩
    else if filterRejects s path info.size then none
    else
      let hr := HashFile fs path s.Hashers
      let outputPath := if s.AbsolutePath then fs.abs path else path
      some ⟨outputPath, info.size, hr.1, hr.2⟩

/-- Go `Scanner.processFile` (the directory-walk dispatch target): stat,
then hash — the filter is not re-checked and directories are not
re-detected ("assumes filtering is done"). -/
def processFile (fs : FS) (s : ScannerCfg) (path : String) : Option Result :=
  match fs.stat path with
  | none => some ⟨path, 0, none, some .statError⟩
  | some info =>
    let hr := HashFile fs path s.Hashers
    let outputPath := if s.AbsolutePath then fs.abs path else path
    some ⟨outputPath, info.size, hr.1, hr.2⟩

/-- Go `Scanner.ScanFiles` under width-1 (`Workers = 1`) scheduling: the
dispatch loop blocks on the semaphore, so each worker finishes before the
next path is dispatched.  The `return` taken under `FailOnError` inside the
worker goroutine ends only that goroutine; the range loop never observes
it, so every path is dispatched whatever the earlier outcomes.  Returns
(emitted results, dispatched paths), both in order. -/
def ScanFilesSeq (fs : FS) (s : ScannerCfg) : List String → List Result × List String
  | [] => ([], [])
  | path :: rest =>
    let r := ScanFile fs s path
    let tailRes := ScanFilesSeq fs s rest
    (match r with
     | some res => res :: tailRes.1
     | none => tailRes.1,
     path :: tailRes.2)

/-- A minimal hasher used to instantiate concrete scan scenarios: its
accumulator collects the raw bytes and its digest is those bytes. -/
def collectHasher : Hasher.Hasher :=
  ⟨List Nat,
   { name := "collect", new := [], write := fun st c => st ++ c,
     sum := fun st => st, isBase64 := false }⟩

/-- Width-1 fail-on-error scenario: three paths, the middle one failing to
stat. -/
def fsC5 : FS :=
  { stat := fun p =>
      if p = "bad.txt" then none
      else if p = "a.txt" ∨ p = "c.txt" then
        some { isDir := false, size := 1, chunks := [[1]], readable := true }
      else none,
    abs := fun p => p }

/-- Fail-on-error scanner of width 1. -/
def scannerC5 : ScannerCfg :=
  { Workers := 1, Filter := none, Hashers := [collectHasher],
    OnError := .FailOnError, Recursive := true, AbsolutePath := false }

/-- Walk-dispatch scenario: a readable `b.log` under a `.txt`-only
filter. -/
def fsC6 : FS :=
  { stat := fun p =>
      if p = "b.log" then some { isDir := false, size := 1, chunks := [[2]], readable := true }
      else none,
    abs := fun p => p }

/-- Skip-on-error scanner whose filter only admits `.txt` files. -/
def scannerC6 : ScannerCfg :=
  { Workers := 1, Filter := some ⟨0, 0, [".txt"], [], [], []⟩,
    Hashers := [collectHasher], OnError := .SkipOnError,
    Recursive := true, AbsolutePath := false }

end Scanner

/-- C5: under the fail-on-error policy at width 1, the first failure does
not stop dispatch in `ScanFiles` — the `return` in the worker goroutine
ends only that worker.  At the failing input `["a.txt", "bad.txt", "c.txt"]`
with `bad.txt` unreadable, all three paths are dispatched and all three
emit Results; in particular `c.txt`, enumerated strictly after the failure,
is still dispatched and hashed, contradicting both the claim and
`FailOnError`'s own doc comment ("stops scanning immediately on the first
error"). -/
theorem C5_failonerror_keeps_dispatching :
    Scanner.scannerC5.OnError = Scanner.ErrorStrategy.FailOnError ∧
    Scanner.scannerC5.Workers = 1 ∧
    (Scanner.ScanFilesSeq Scanner.fsC5 Scanner.scannerC5 ["a.txt", "bad.txt", "c.txt"]).2
      = ["a.txt", "bad.txt", "c.txt"] ∧
    (Scanner.ScanFilesSeq Scanner.fsC5 Scanner.scannerC5 ["a.txt", "bad.txt", "c.txt"]).1
      = [⟨"a.txt", 1, some [("collect", "01")], none⟩,
         ⟨"bad.txt", 0, none, some .statError⟩,
         ⟨"c.txt", 1, some [("collect", "01")], none⟩] := by
  refine ⟨rfl, rfl, ?_, ?_⟩ <;> rfl

/-- C6-counterexample: the claim is false for walk-dispatched paths.  The
filter (only `.txt`) rejects `b.log`, yet `processFile` — the dispatch
target of the directory walk — does not re-check the filter: it stats and
hashes `b.log` and returns a full success Result instead of dropping it
before any bytes are read. -/
theorem C6_walk_dispatch_counterexample :
    Scanner.filterRejects Scanner.scannerC6 "b.log" 1 = true ∧
    Scanner.processFile Scanner.fsC6 Scanner.scannerC6 "b.log"
      = some ⟨"b.log", 1, some [("collect", "02")], none⟩ := by
  exact ⟨rfl, rfl⟩

/-- C6-amended: the claimed per-path sequence (stat; invalid-target for
directories; filter re-check dropping rejected paths before any read; then
hash) holds for `ScanFile`, the explicit-path-list dispatch; the
directory-walk dispatch `processFile` stats and hashes only, and its result
is independent of the configured filter. -/
theorem C6_per_path_processing (fs : Scanner.FS) (s : Scanner.ScannerCfg) (path : String) :
    (fs.stat path = none →
      Scanner.ScanFile fs s path = some ⟨path, 0, none, some .statError⟩) ∧
    (∀ info, fs.stat path = some info → info.isDir = true →
      Scanner.ScanFile fs s path = some ⟨path, 0, none, some .errInvalid⟩) ∧
    (∀ info, fs.stat path = some info → info.isDir = false →
      Scanner.filterRejects s path info.size = true →
      Scanner.ScanFile fs s path = none) ∧
    (∀ info, fs.stat path = some info → info.isDir = false →
      Scanner.filterRejects s path info.size = false →
      Scanner.ScanFile fs s path = some ⟨if s.AbsolutePath then fs.abs path else path,
        info.size, (Scanner.HashFile fs path s.Hashers).1,
        (Scanner.HashFile fs path s.Hashers).2⟩) ∧
    (∀ f g, Scanner.processFile fs { s with Filter := f } path
        = Scanner.processFile fs { s with Filter := g } path) := by
  refine ⟨?_, ?_, ?_, ?_, ?_⟩
  · intro h
    simp [Scanner.ScanFile, h]
  · intro info h hdir
    simp [Scanner.ScanFile, h, hdir]
  · intro info h hdir hrej
    simp [Scanner.ScanFile, h, hdir, hrej]
  · intro info h hdir hrej
    simp [Scanner.ScanFile, h, hdir, hrej]
  · intro f g
    rfl

/-- Witness for C6-amended at the concrete walk scenario: a missing path
fails with a stat error, the filter-rejected `b.log` yields `none` from
`ScanFile`, and `processFile` ignores the filter entirely. -/
theorem C6_per_path_processing_witness :
    (Scanner.fsC6.stat "nofile" = none ∧
      Scanner.ScanFile Scanner.fsC6 Scanner.scannerC6 "nofile"
        = some ⟨"nofile", 0, none, some .statError⟩) ∧
    (Scanner.fsC6.stat "b.log" = some ⟨false, 1, [[2]], true⟩ ∧
      Scanner.filterRejects Scanner.scannerC6 "b.log" (1 : Int) = true ∧
      Scanner.ScanFile Scanner.fsC6 Scanner.scannerC6 "b.log" = none) ∧
    Scanner.processFile Scanner.fsC6 { Scanner.scannerC6 with Filter := none } "b.log"
      = Scanner.processFile Scanner.fsC6
          { Scanner.scannerC6 with Filter := some ⟨0, 0, [".txt"], [], [], []⟩ } "b.log" :=
  ⟨⟨rfl, (C6_per_path_processing Scanner.fsC6 Scanner.scannerC6 "nofile").1 rfl⟩,
   ⟨rfl, rfl,
    (C6_per_path_processing Scanner.fsC6 Scanner.scannerC6 "b.log").2.2.1
      ⟨false, 1, [[2]], true⟩ rfl rfl rfl⟩,
   (C6_per_path_processing Scanner.fsC6 Scanner.scannerC6 "b.log").2.2.2.2
     none (some ⟨0, 0, [".txt"], [], [], []⟩)⟩

/-- C10: a path rejected by a configured filter produces no Result at all:
`ScanFile` returns `none` (Go `nil`), and the width-1 dispatch loop of
`ScanFiles` emits nothing for it — inserting the path anywhere in the input
list leaves the emitted result stream unchanged. -/
theorem C10_filtered_path_yields_nothing (fs : Scanner.FS) (s : Scanner.ScannerCfg)
    (path : String) (info : Scanner.FSEntry)
    (hstat : fs.stat path = some info) (hdir : info.isDir = false)
    (hrej : Scanner.filterRejects s path info.size = true) :
    Scanner.ScanFile fs s path = none ∧
    ∀ pre post, (Scanner.ScanFilesSeq fs s (pre ++ path :: post)).1
      = (Scanner.ScanFilesSeq fs s (pre ++ post)).1 := by
  have hnil : Scanner.ScanFile fs s path = none := by
    simp [Scanner.ScanFile, hstat, hdir, hrej]
  refine ⟨hnil, ?_⟩
  intro pre post
  induction pre with
  | nil =>
    simp only [List.nil_append, Scanner.ScanFilesSeq, hnil]
  | cons q qs ih =>
    simp only [List.cons_append, Scanner.ScanFilesSeq, List.append_eq]
    rw [ih]

/-- Witness for C10: `b.log` under the `.txt`-only filter yields no Result,
and the result stream for `["a.txt", "b.log", "c.txt"]` equals the one for
`["a.txt", "c.txt"]`. -/
theorem C10_filtered_path_yields_nothing_witness :
    Scanner.fsC6.stat "b.log" = some ⟨false, 1, [[2]], true⟩ ∧
    (⟨false, 1, [[2]], true⟩ : Scanner.FSEntry).isDir = false ∧
    Scanner.filterRejects Scanner.scannerC6 "b.log" (1 : Int) = true ∧
    (Scanner.ScanFile Scanner.fsC6 Scanner.scannerC6 "b.log" = none ∧
      (Scanner.ScanFilesSeq Scanner.fsC6 Scanner.scannerC6
          (["a.txt"] ++ "b.log" :: ["c.txt"])).1
        = (Scanner.ScanFilesSeq Scanner.fsC6 Scanner.scannerC6 (["a.txt"] ++ ["c.txt"])).1) :=
  ⟨rfl, rfl, rfl,
   (C10_filtered_path_yields_nothing Scanner.fsC6 Scanner.scannerC6 "b.log"
      ⟨false, 1, [[2]], true⟩ rfl rfl rfl).1,
   (C10_filtered_path_yields_nothing Scanner.fsC6 Scanner.scannerC6 "b.log"
      ⟨false, 1, [[2]], true⟩ rfl rfl rfl).2 ["a.txt"] ["c.txt"]⟩
